import Mathlib

/-!
# Liquidity-mining reward engine and payer: verification development

Shallow embedding of the repository sources
`src/syncer/rewards.py`, `src/payouts/payer.py` and `src/contract/disperse.py`.

Modelling conventions:
* Python `Decimal` and the fixed-point `Wad` type are modelled as exact rational
  arithmetic over `ℚ` (the specification describes a Decimal as an
  arbitrary-precision signed rational); context rounding at 28 significant
  digits is below every discrepancy proved here.
* Python float literals are embedded as the exact rational value of the
  IEEE-754 double they denote (for instance `0.2` denotes
  3602879701896397 / 2 ^ 54, not 1/5).
* Database tables are embedded as lists of rows; a SQLAlchemy session is
  explicit state passing.  Fallible code returns `Except`.
* Addresses, pool names and round names are strings, as in the source.
-/

namespace LiquidityMining

abbrev Addr := String

/-! ## Payer data model (src/payouts/payer.py, model tables) -/

/-- Status values of a PaymentTransaction row (spec section 3). -/
inductive TxStatus where
  | INIT
  | PENDING
  | SUCCESS
  | FAILED
deriving DecidableEq

/-- A PaymentTransaction row.  `miners` and `amounts` are the decoded
`transaction_data` JSON payload stored at payer.py:96-100. -/
structure PaymentTransaction where
  id : Nat
  transaction_nonce : Nat
  transaction_hash : String
  miners : List Addr
  amounts : List ℚ
  status : TxStatus
deriving DecidableEq

/-- A Payment row (fields set at payer.py:122-126). -/
structure Payment where
  holder : Addr
  amount : ℚ
  transaction_id : Nat
deriving DecidableEq

/-- A RoundPayment row (fields set at payer.py:131-135). -/
structure RoundPayment where
  mining_round : String
  holder : Addr
  amount : ℚ
deriving DecidableEq

/-- The payer-side persistent state: the three tables the Payer writes. -/
structure PayerDB where
  paymentTransactions : List PaymentTransaction
  payments : List Payment
  roundPayments : List RoundPayment
deriving DecidableEq

/-- Modelled from the spec: the `transaction_status` method of the
PaymentTransaction model lives in `model/` which is not under src/; per the
spec state machine, the status observed from a receipt is SUCCESS when the
receipt reports success and FAILED otherwise. -/
def transaction_status_of_receipt (receipt_success : Bool) : TxStatus :=
  if receipt_success then TxStatus.SUCCESS else TxStatus.FAILED

/-- Update the status of the first PaymentTransaction row with the given hash
(the `filter_by(transaction_hash=...).first()` query at payer.py:114-117). -/
def update_first_tx_status : List PaymentTransaction → String → TxStatus → List PaymentTransaction
  | [], _, _ => []
  | t :: ts, h, st =>
    if t.transaction_hash = h then { t with status := st } :: ts
    else t :: update_first_tx_status ts h st

/-- Embeds `Payer._save_payments_info` (payer.py:110-146).  The transaction row
matching the receipt hash gets its status updated.  On SUCCESS one Payment row
is added per (miner, amount) pair of the stored payload.  The RoundPayment
object constructed at payer.py:131-135 is never passed to `db_session.add`, so
no RoundPayment row is persisted: `roundPayments` is returned unchanged.
When no transaction row matches the hash the AttributeError is caught at
payer.py:143 and the session is rolled back, leaving the state unchanged. -/
def save_payments_info (db : PayerDB) (receipt_hash : String) (receipt_success : Bool)
    (miners : List Addr) (amounts : List ℚ) : PayerDB :=
  match db.paymentTransactions.find? (fun t => decide (t.transaction_hash = receipt_hash)) with
  | none => db
  | some pt =>
    let st := transaction_status_of_receipt receipt_success
    let txs := update_first_tx_status db.paymentTransactions receipt_hash st
    if st = TxStatus.SUCCESS then
      { db with
          paymentTransactions := txs,
          payments := db.payments ++
            (List.zip miners amounts).map (fun ma => { holder := ma.1, amount := ma.2, transaction_id := pt.id }) }
    else
      { db with paymentTransactions := txs }

/-! ## Unpaid-reward computation (payer.py:148-165) -/

/-- A MatureMiningReward row (derived maturation projection, spec section 4.4). -/
structure MatureMiningReward where
  mining_round : String
  holder : Addr
  mcb_balance : ℚ
deriving DecidableEq

/-- A RoundPaymentSummary row (materialized view over RoundPayment). -/
structure RoundPaymentSummary where
  mining_round : String
  holder : Addr
  paid_amount : ℚ
deriving DecidableEq

/-- One result row of the LEFT OUTER JOIN in `Payer._get_miner_unpaid_reward`
(payer.py:150-154): the join condition is on holder only, and `paid_amount` is
NULL (`none`) when the holder has no RoundPaymentSummary row at all. -/
def outer_join_paid (summaries : List RoundPaymentSummary) (m : MatureMiningReward) :
    List (Addr × ℚ × Option ℚ) :=
  match summaries.filter (fun s => decide (s.holder = m.holder)) with
  | [] => [(m.holder, m.mcb_balance, none)]
  | l => l.map (fun s => (m.holder, m.mcb_balance, some s.paid_amount))

/-- The full result set of the query at payer.py:150-154, restricted to the
configured mining round on the MatureMiningReward side only. -/
def unpaid_query_rows (mature : List MatureMiningReward) (summaries : List RoundPaymentSummary)
    (round : String) : List (Addr × ℚ × Option ℚ) :=
  ((mature.filter (fun m => decide (m.mining_round = round))).map (outer_join_paid summaries)).foldr
    (· ++ ·) []

/-- Embeds `Payer._get_miner_unpaid_reward` (payer.py:148-165).  The Python
expression `item.mcb_balance - item.paid_amount` raises TypeError when
`paid_amount` is None, modelled by `Except.error ()`; holders whose difference
is positive are collected into the miners and amounts lists. -/
def get_miner_unpaid_reward (mature : List MatureMiningReward)
    (summaries : List RoundPaymentSummary) (round : String) :
    Except Unit (List Addr × List ℚ) :=
  (unpaid_query_rows mature summaries round).foldl
    (fun acc row =>
      match acc with
      | Except.error e => Except.error e
      | Except.ok (miners, amounts) =>
        match row.2.2 with
        | none => Except.error ()
        | some paid =>
          let unpaid := row.2.1 - paid
          if 0 < unpaid then Except.ok (miners ++ [row.1], amounts ++ [unpaid])
          else Except.ok (miners, amounts))
    (Except.ok ([], []))

/-! ## Reconcile and pay cycle (payer.py:73-89 and 167-198) -/

/-- A transaction receipt as returned by `waitForTransactionReceipt`. -/
structure Receipt where
  transactionHash : String
  status : Bool
deriving DecidableEq

/-- The INIT/PENDING rows loaded at payer.py:76-78. -/
def pending_of (db : PayerDB) : List PaymentTransaction :=
  db.paymentTransactions.filter
    (fun t => decide (t.status = TxStatus.INIT ∨ t.status = TxStatus.PENDING))

/-- The receipt loop of `Payer._check_pending_transactions` (payer.py:79-89):
wait for each receipt in order; on the first wait error return False
immediately; otherwise apply `save_payments_info` and continue. -/
def check_pending_go (oracle : String → Except Unit Receipt) :
    PayerDB → List PaymentTransaction → PayerDB × Bool
  | db, [] => (db, true)
  | db, t :: rest =>
    match oracle t.transaction_hash with
    | Except.error _ => (db, false)
    | Except.ok r =>
      check_pending_go oracle (save_payments_info db r.transactionHash r.status t.miners t.amounts) rest

/-- Embeds `Payer._check_pending_transactions` (payer.py:73-89). -/
def check_pending_transactions (db : PayerDB) (oracle : String → Except Unit Receipt) :
    PayerDB × Bool :=
  check_pending_go oracle db (pending_of db)

/-- Embeds `Payer._save_payment_transaction` (payer.py:91-108): insert a new
PaymentTransaction row in INIT status carrying the cached nonce and payload. -/
def save_payment_transaction (db : PayerDB) (nonce : Nat) (tx_hash : String)
    (miners : List Addr) (amounts : List ℚ) : PayerDB :=
  { db with
      paymentTransactions := db.paymentTransactions ++
        [{ id := db.paymentTransactions.length + 1,
           transaction_nonce := nonce,
           transaction_hash := tx_hash,
           miners := miners,
           amounts := amounts,
           status := TxStatus.INIT }] }

/-- Observable outcome of one `Payer.run` cycle: final database, final cached
nonce, whether the disperse contract was called, and whether unpaid rewards
were read. -/
structure RunResult where
  db : PayerDB
  nonce : Nat
  disperse_called : Bool
  read_unpaid : Bool
deriving DecidableEq

/-- Embeds `Payer.run` (payer.py:167-198).  `oracle` models
`waitForTransactionReceipt`, `disperse_result` the outcome of
`disperse.disperse_token` (disperse.py:33-39).  The gas-price refresh touches
no state modelled here.  A TypeError escaping `_get_miner_unpaid_reward`
propagates out of run, modelled by `Except.error`. -/
def run_payer (db : PayerDB) (oracle : String → Except Unit Receipt)
    (mature : List MatureMiningReward) (summaries : List RoundPaymentSummary)
    (round : String) (disperse_result : Except Unit String) (nonce : Nat) :
    Except Unit RunResult :=
  let checked := check_pending_transactions db oracle
  if checked.2 = false then Except.ok ⟨checked.1, nonce, false, false⟩
  else
    match get_miner_unpaid_reward mature summaries round with
    | Except.error e => Except.error e
    | Except.ok (miners, amounts) =>
      if miners.isEmpty then Except.ok ⟨checked.1, nonce, false, true⟩
      else
        let nonce1 := nonce + 1
        match disperse_result with
        | Except.error _ => Except.ok ⟨checked.1, nonce1, true, true⟩
        | Except.ok tx_hash =>
          let db2 := save_payment_transaction checked.1 nonce1 tx_hash miners amounts
          match oracle tx_hash with
          | Except.error _ => Except.ok ⟨db2, nonce1, true, true⟩
          | Except.ok rc =>
            Except.ok ⟨save_payments_info db2 rc.transactionHash rc.status miners amounts,
              nonce1, true, true⟩

/-- The immutable identity of the stored transaction rows: id, nonce, hash.
`save_payments_info` may change statuses but inserts no row. -/
def tx_keys (db : PayerDB) : List (Nat × Nat × String) :=
  db.paymentTransactions.map (fun t => (t.id, t.transaction_nonce, t.transaction_hash))

/-! ## Nonce discipline (payer.py:53-60 and 180) -/

/-- Maximum of a list of nonces (empty list gives 0). -/
def max_nonce : List Nat → Nat
  | [] => 0
  | n :: rest => max n (max_nonce rest)

/-- Embeds `Payer._init_payer_nonce` (payer.py:53-60): the cached nonce starts
at the maximum stored `transaction_nonce` plus one, or at the chain-reported
transaction count plus one when no PaymentTransaction row exists. -/
def init_payer_nonce (persisted : List Nat) (chain_count : Nat) : Nat :=
  match persisted with
  | [] => chain_count + 1
  | _ :: _ => max_nonce persisted + 1

/-- Cached nonce plus the list of persisted `transaction_nonce` values, in
insertion order. -/
structure NonceState where
  cached : Nat
  persisted : List Nat
deriving DecidableEq

/-- The nonce recorded by the next pay cycle: `self.nonce = self.nonce + 1`
at payer.py:180 runs before `disperse_token` and
`_save_payment_transaction` store it. -/
def pay_record (s : NonceState) : Nat := s.cached + 1

/-- The nonce-relevant events of the payer process.  `pay_success` is a pay
cycle whose PaymentTransaction insert succeeds, `pay_no_record` is a pay cycle
that bumps the nonce but fails before or during the insert (payer.py:182-188),
`restart` re-runs `_init_payer_nonce` against the persisted rows. -/
inductive PayerEvent : NonceState → NonceState → Prop where
  | pay_success (c : Nat) (l : List Nat) : PayerEvent ⟨c, l⟩ ⟨c + 1, l ++ [c + 1]⟩
  | pay_no_record (c : Nat) (l : List Nat) : PayerEvent ⟨c, l⟩ ⟨c + 1, l⟩
  | restart (c : Nat) (l : List Nat) (chain_count : Nat) :
      PayerEvent ⟨c, l⟩ ⟨init_payer_nonce l chain_count, l⟩

/-- Reachability under payer events. -/
def PayerReachable : NonceState → NonceState → Prop :=
  Relation.ReflTransGen PayerEvent

/-- The nonce discipline: persisted nonces are strictly increasing in
insertion order and never exceed the cached nonce. -/
def NonceInv (s : NonceState) : Prop :=
  s.persisted.Chain' (· < ·) ∧ ∀ x ∈ s.persisted, x ≤ s.cached

/-! ## Reward engine data model (src/syncer/rewards.py, model tables) -/

/-- An ImmatureMiningReward row (fields set at rewards.py:450-455). -/
structure ImmatureMiningReward where
  block_number : Nat
  mining_round : String
  pool_name : String
  holder : Addr
  mcb_balance : ℚ
deriving DecidableEq

/-- An ImmatureMiningRewardSummary row (fields set at rewards.py:459-468). -/
structure ImmatureMiningRewardSummary where
  mining_round : String
  pool_name : String
  holder : Addr
  mcb_balance : ℚ
deriving DecidableEq

/-- The engine-side persistent state: reward rows plus the summary table. -/
structure RewardDB where
  rewards : List ImmatureMiningReward
  summaries : List ImmatureMiningRewardSummary
deriving DecidableEq

/-- Key test for a summary row, as in the queries at rewards.py:418-421 and
rewards.py:643-647. -/
def summary_matches (r p h : String) (s : ImmatureMiningRewardSummary) : Bool :=
  decide (s.mining_round = r ∧ s.pool_name = p ∧ s.holder = h)

/-- Key test for a reward row, grouping as at rewards.py:634. -/
def reward_matches (r p h : String) (row : ImmatureMiningReward) : Bool :=
  decide (row.mining_round = r ∧ row.pool_name = p ∧ row.holder = h)

/-- Add `amt` to the balance of the first row satisfying `pk`, as the session
does when mutating the row object fetched into the summary dict. -/
def add_to_first_summary :
    List ImmatureMiningRewardSummary → (ImmatureMiningRewardSummary → Bool) → ℚ →
      List ImmatureMiningRewardSummary
  | [], _, _ => []
  | s :: rest, pk, amt =>
    if pk s then { s with mcb_balance := s.mcb_balance + amt } :: rest
    else s :: add_to_first_summary rest pk amt

/-- The summary upsert of rewards.py:458-468: increment the existing row for
(round, pool, holder), or insert a fresh row carrying the reward. -/
def upsert_immature_summary (l : List ImmatureMiningRewardSummary) (r p h : String) (amt : ℚ) :
    List ImmatureMiningRewardSummary :=
  if l.any (summary_matches r p h) then add_to_first_summary l (summary_matches r p h) amt
  else l ++ [⟨r, p, h, amt⟩]

/-- One iteration of the holder loop at rewards.py:434-468: insert an
ImmatureMiningReward row and upsert the summary by the same amount. -/
def insert_immature_reward (db : RewardDB) (blk : Nat) (r p : String) (h : Addr) (amt : ℚ) :
    RewardDB :=
  { rewards := db.rewards ++ [⟨blk, r, p, h, amt⟩],
    summaries := upsert_immature_summary db.summaries r p h amt }

/-- The persistence loop of `ShareMining._calculate_pools_reward` for one pool:
`entries` is the list of (holder, reward) amounts the numeric passes computed
for that pool (the reward formulas are embedded separately below; they read
only watcher tables, never the immature tables, so they are a parameter
here). -/
def sync_pool_rewards (db : RewardDB) (blk : Nat) (r p : String) (entries : List (Addr × ℚ)) :
    RewardDB :=
  entries.foldl (fun d e => insert_immature_reward d blk r p e.1 e.2) db

/-- Embeds the persistence effect of `ShareMining._calculate_pools_reward`
(rewards.py:401-468) over its pools: one pool after another, each with its
computed per-holder rewards.  A `sync` call inside the mining window is one or
two such calls (rewards.py:488-626). -/
def calculate_pools_reward (db : RewardDB) (blk : Nat) (r : String)
    (pools : List (String × List (Addr × ℚ))) : RewardDB :=
  pools.foldl (fun d pr => sync_pool_rewards d blk r pr.1 pr.2) db

/-- Sum of the balances of the summary rows with the given key (0 when no row
exists; the table keeps one row per key, making this the stored value). -/
def summaries_balance (l : List ImmatureMiningRewardSummary) (r p h : String) : ℚ :=
  ((l.filter (summary_matches r p h)).map (fun s => s.mcb_balance)).sum

/-- Summary balance of a database state at a key. -/
def summary_balance (db : RewardDB) (r p h : String) : ℚ :=
  summaries_balance db.summaries r p h

/-- Sum of the reward rows with the given (round, pool, holder) key. -/
def rows_sum (rows : List ImmatureMiningReward) (r p h : String) : ℚ :=
  ((rows.filter (reward_matches r p h)).map (fun row => row.mcb_balance)).sum

/-- The deletion filter of `ShareMining.rollback` (rewards.py:631-633 and
654-657): rows strictly above the rollback block, in the engine round. -/
def doomed_filter (blk : Nat) (r : String) (row : ImmatureMiningReward) : Bool :=
  decide (blk < row.block_number ∧ row.mining_round = r)

/-- The summary decrement of rewards.py:641-652: subtract when a summary row
for the group exists, otherwise log the inconsistency and change nothing. -/
def subtract_summary_if_present (l : List ImmatureMiningRewardSummary) (r p h : String)
    (amt : ℚ) : List ImmatureMiningRewardSummary :=
  if l.any (summary_matches r p h) then add_to_first_summary l (summary_matches r p h) (-amt)
  else l

/-- Embeds `ShareMining.rollback` (rewards.py:628-657): aggregate the doomed
rows by (pool, holder) (the round is fixed), decrement each matching summary
row by the aggregated amount, then delete the doomed rows. -/
def rollback_rewards (db : RewardDB) (blk : Nat) (r : String) : RewardDB :=
  let doomed := db.rewards.filter (doomed_filter blk r)
  let keys := (doomed.map (fun row => (row.pool_name, row.holder))).dedup
  { rewards := db.rewards.filter (fun row => !(doomed_filter blk r row)),
    summaries := keys.foldl
      (fun l k => subtract_summary_if_present l r k.1 k.2 (rows_sum doomed r k.1 k.2))
      db.summaries }

/-- The engine transitions: a sync call persisting computed per-pool rewards
(nonnegative, as every reward is a product and quotient of nonnegative
balances, prices and proportions, matching the data-model invariant
mcb_balance ≥ 0), or a rollback. -/
inductive EngineStep : RewardDB → RewardDB → Prop where
  | sync (db : RewardDB) (blk : Nat) (r : String) (pools : List (String × List (Addr × ℚ)))
      (hnn : ∀ pr ∈ pools, ∀ e ∈ pr.2, 0 ≤ e.2) :
      EngineStep db (calculate_pools_reward db blk r pools)
  | rollback (db : RewardDB) (blk : Nat) (r : String) :
      EngineStep db (rollback_rewards db blk r)

/-- Reachability under engine steps. -/
def EngineReachable : RewardDB → RewardDB → Prop :=
  Relation.ReflTransGen EngineStep

/-- The summary invariant of spec section 8: for every (round, pool, holder)
the summary value equals the sum of the immature reward rows of the group. -/
def SummaryInvariant (db : RewardDB) : Prop :=
  ∀ r p h, summary_balance db r p h = rows_sum db.rewards r p h

/-- The data-model invariant mcb_balance ≥ 0 on reward rows. -/
def NonnegRewards (db : RewardDB) : Prop :=
  ∀ row ∈ db.rewards, 0 ≤ row.mcb_balance

/-- The reward rows appended by one persistence pass. -/
def entry_rows (blk : Nat) (r p : String) (entries : List (Addr × ℚ)) :
    List ImmatureMiningReward :=
  entries.map (fun e => ⟨blk, r, p, e.1, e.2⟩)

/-- The reward rows appended by a whole `calculate_pools_reward` call. -/
def pools_rows (blk : Nat) (r : String) :
    List (String × List (Addr × ℚ)) → List ImmatureMiningReward
  | [] => []
  | pr :: rest => entry_rows blk r pr.1 pr.2 ++ pools_rows blk r rest

/-- Total reward of a holder inside one entry list. -/
def entries_sum_for (h : Addr) (entries : List (Addr × ℚ)) : ℚ :=
  ((entries.filter (fun e => decide (e.1 = h))).map (fun e => e.2)).sum

/-- Total reward a `calculate_pools_reward` call attributes to (pool, holder). -/
def pools_entries_sum : List (String × List (Addr × ℚ)) → String → Addr → ℚ
  | [], _, _ => 0
  | pr :: rest, p, h =>
    (if pr.1 = p then entries_sum_for h pr.2 else 0) + pools_entries_sum rest p h

/-! ## Per-block reward budget (rewards.py:162-169) -/

/-- The exact value of the IEEE-754 double written `0.2` at rewards.py:166. -/
def dbl_0_2 : ℚ := 3602879701896397 / 18014398509481984

/-- Embeds the `self._reward_per_block` update at the head of
`ShareMining._get_pool_value_info` (rewards.py:162-169).  `current` is the
value held by the engine instance before the call.  The chain is
if / elif / elif, so the QIN branches shadow the voted override window. -/
def update_reward_per_block (round : String) (qin_reduce_reward_block : Nat)
    (block_number : Nat) (current : ℚ) : ℚ :=
  if round = "QIN" ∧ block_number < qin_reduce_reward_block then 2
  else if round = "QIN" ∧ qin_reduce_reward_block ≤ block_number then dbl_0_2
  else if 11601000 ≤ block_number ∧ block_number < 11685000 then 3 / 16
  else current

/-! ## Reward factor (rewards.py:254-276) -/

/-- Embeds `ShareMining._get_holder_reward_factor` (rewards.py:254-276).
The source reads:
if ZHOU, set (m, n) to the ZHOU constants; if QIN, set them to the QIN
constants, else set them to the default (2, 102500).  The second if / else
runs unconditionally, so on a ZHOU round the else branch immediately
overwrites the ZHOU constants with the default: only QIN ever uses configured
constants, and the zhou parameters cannot influence the result. -/
def get_holder_reward_factor (round : String) (zhou_m zhou_n qin_m qin_n : ℚ)
    (reward holder_mcb_balance : ℚ) : ℚ :=
  let mn : ℚ × ℚ := if round = "QIN" then (qin_m, qin_n) else (2, 102500)
  let mcb_weight : ℚ := if reward = 0 then 0 else holder_mcb_balance / (reward * mn.2)
  if mcb_weight < 1 then 1 + mcb_weight * mn.1 else 1 + mn.1

/-- The factor as the claim words it: (M, N) from the ZHOU configuration on a
ZHOU round, from the QIN configuration on QIN, default (2, 102500) otherwise,
and factor = 1 + min(mcb_weight, 1) * M. -/
def claimed_reward_factor (round : String) (zhou_m zhou_n qin_m qin_n : ℚ)
    (reward holder_mcb_balance : ℚ) : ℚ :=
  let mn : ℚ × ℚ :=
    if round = "ZHOU" then (zhou_m, zhou_n)
    else if round = "QIN" then (qin_m, qin_n)
    else (2, 102500)
  let mcb_weight : ℚ := if reward = 0 then 0 else holder_mcb_balance / (reward * mn.2)
  1 + min mcb_weight 1 * mn.1

/-! ## Uniswap pool proportions (rewards.py:470-486, 219, 615-626) -/

/-- The per-pool data the sync round handlers build (rewards.py:494-626). -/
structure PoolInfo where
  pool_name : String
  pool_share_token_address : Addr
  pool_type : String
deriving DecidableEq

/-- The HAN round pool set (rewards.py:615-626): only the two UNISWAP pools,
with pool_reward_percent = 1. -/
def han_pool_info (eth_addr usdc_addr : Addr) : List PoolInfo :=
  [⟨"UNISWAP_MCB_ETH", eth_addr, "UNISWAP"⟩, ⟨"UNISWAP_MCB_USDC", usdc_addr, "UNISWAP"⟩]

/-- The MCB held across all UNISWAP pool share-token addresses
(rewards.py:472-478); `mcb_of` is the holder_mcb_balance_dict lookup with
default 0. -/
def total_mcb_in_uniswap_pools (mcb_of : Addr → ℚ) (pools : List PoolInfo) : ℚ :=
  ((pools.filter (fun p => decide (p.pool_type = "UNISWAP"))).map
    (fun p => mcb_of p.pool_share_token_address)).sum

/-- Embeds `_update_uniswap_pool_proportion` (rewards.py:480-486) combined
with the default read at rewards.py:186: each UNISWAP pool gets the share of
total UNISWAP-held MCB sitting at its share-token address; when that total is
zero the proportion keeps its default value 1. -/
def uniswap_pool_proportion (mcb_of : Addr → ℚ) (pools : List PoolInfo) (p : PoolInfo) : ℚ :=
  let total := total_mcb_in_uniswap_pools mcb_of pools
  if p.pool_type = "UNISWAP" ∧ total ≠ 0 then mcb_of p.pool_share_token_address / total
  else 1

/-- The UNISWAP pool reward of rewards.py:219:
pool_reward_percent * reward_per_block * uniswap_pool_proportion. -/
def uniswap_pool_reward (pool_reward_percent reward_per_block : ℚ) (mcb_of : Addr → ℚ)
    (pools : List PoolInfo) (p : PoolInfo) : ℚ :=
  pool_reward_percent * reward_per_block * uniswap_pool_proportion mcb_of pools p

/-- Concrete MCB balances for evaluating the HAN split: the MCB/ETH share
token holds 30 MCB, the MCB/USDC share token holds 10 MCB. -/
def c8_mcb_balances : Addr → ℚ :=
  fun a => if a = "0xethpool" then 30 else if a = "0xusdcpool" then 10 else 0

/-! ## SHANG effective-share curve (rewards.py:95-101) -/

/-- The exact value of the IEEE-754 double written `44/35` at rewards.py:101. -/
def dbl_44_35 : ℚ := 1415417025745013 / 1125899906842624

/-- The exact value of the IEEE-754 double written `9/7` at rewards.py:101. -/
def dbl_9_7 : ℚ := 5790342378047781 / 4503599627370496

/-- The exact value of the IEEE-754 double written `0.1` at rewards.py:99. -/
def dbl_0_1 : ℚ := 3602879701896397 / 36028797018963968

/-- The exact value of the IEEE-754 double written `0.9` at rewards.py:98. -/
def dbl_0_9 : ℚ := 8106479329266893 / 9007199254740992

/-- Embeds the SHANG branch of `ShareMining._get_effective_share_info`
(rewards.py:95-101).  The literals Decimal(0.2), Decimal(0.9), Decimal(0.1),
Decimal(44/35) and Decimal(9/7) convert the Python float to Decimal exactly,
so they denote the doubles embedded above, not the exact fractions. -/
def shang_effective_share (holder_share_token_amount imbalance_rate : ℚ) : ℚ :=
  if imbalance_rate ≤ dbl_0_2 then holder_share_token_amount
  else if dbl_0_9 ≤ imbalance_rate then holder_share_token_amount * dbl_0_1
  else holder_share_token_amount * (dbl_44_35 - imbalance_rate * dbl_9_7)

/-! ## Concrete fixtures used to evaluate the embedded operations -/

/-- A payer database holding one PENDING disperse transaction with a
single-recipient payload. -/
def c1_db : PayerDB :=
  { paymentTransactions :=
      [{ id := 1, transaction_nonce := 7, transaction_hash := "0xabc",
         miners := ["0xholder1"], amounts := [5], status := TxStatus.PENDING }],
    payments := [], roundPayments := [] }

/-- A payer database holding one PENDING transaction whose receipt wait will
error out. -/
def c5_db : PayerDB :=
  { paymentTransactions :=
      [{ id := 1, transaction_nonce := 4, transaction_hash := "0xdead",
         miners := ["0xm"], amounts := [2], status := TxStatus.PENDING }],
    payments := [], roundPayments := [] }

/-- A receipt oracle that times out on every hash. -/
def c5_oracle : String → Except Unit Receipt := fun _ => Except.error ()

/-- One pool with one holder earning reward 1, for exercising sync twice. -/
def c4_pools : List (String × List (Addr × ℚ)) := [("ETH_PERP", [("0xh", 1)])]

/-! # Theorems -/

/-- C1: the claim demands that a SUCCESS receipt persists one Payment row AND
one RoundPayment row per (holder, amount) pair.  Evaluating the embedded
`_save_payments_info` on a SUCCESS receipt for a stored one-pair payload shows
the Payment row is persisted but the RoundPayment table stays empty: the
source constructs the RoundPayment at payer.py:131-135 but never passes it to
`db_session.add`, so the claimed RoundPayment row is never written. -/
theorem c1_success_persists_payment_but_no_round_payment :
    (save_payments_info c1_db "0xabc" true ["0xholder1"] [5]).payments =
      [{ holder := "0xholder1", amount := 5, transaction_id := 1 }] ∧
    (save_payments_info c1_db "0xabc" true ["0xholder1"] [5]).roundPayments = [] := by
  constructor <;> rfl

/-- C3: the claim says a holder with a positive mature reward and no payment
rows at all is returned with the full mature amount.  Evaluating the embedded
`_get_miner_unpaid_reward` on one mature reward row and an empty
RoundPaymentSummary table yields the error outcome: the LEFT OUTER JOIN gives
paid_amount = None and `mcb_balance - None` raises TypeError at payer.py:161,
so the holder is never returned. -/
theorem c3_unpaid_reward_errors_without_summary_row :
    get_miner_unpaid_reward [{ mining_round := "HAN", holder := "0xh", mcb_balance := 5 }] []
        "HAN" = Except.error () := rfl

/-- C6 counterexample: on a QIN round at block 11601000 (inside the override
window, at or past the reduce block) the reward_per_block update yields the
QIN schedule value, not 0.1875: the elif chain at rewards.py:163-169 lets the
QIN branches shadow the window override, refuting the claimed precedence. -/
theorem c6_qin_window_block_ignores_override :
    update_reward_per_block "QIN" 11000000 11601000 1 ≠ 3 / 16 := by
  unfold update_reward_per_block
  rw [if_neg (fun hc => absurd hc.2 (by omega)), if_pos ⟨rfl, by omega⟩]
  norm_num [dbl_0_2]

/-- C6 amended: blocks in [11601000, 11685000) set reward_per_block = 0.1875
only when the round is not QIN; on a QIN round the schedule (2 before the
reduce block, the double 0.2 at or after it) takes precedence over the
override window. -/
theorem c6_amended_override_only_outside_qin :
    (∀ (round : String) (qrb blk : Nat) (cur : ℚ), round ≠ "QIN" →
        11601000 ≤ blk → blk < 11685000 →
        update_reward_per_block round qrb blk cur = 3 / 16) ∧
    (∀ (qrb blk : Nat) (cur : ℚ), blk < qrb →
        update_reward_per_block "QIN" qrb blk cur = 2) ∧
    (∀ (qrb blk : Nat) (cur : ℚ), qrb ≤ blk →
        update_reward_per_block "QIN" qrb blk cur = dbl_0_2) := by
  refine ⟨?_, ?_, ?_⟩
  · intro round qrb blk cur hr h1 h2
    simp [update_reward_per_block, hr, h1, h2]
  · intro qrb blk cur h
    simp [update_reward_per_block, h]
  · intro qrb blk cur h
    simp [update_reward_per_block, h, Nat.not_lt.mpr h]

/-- C6 witness: a HAN block inside the window gets 0.1875, and a QIN block
below the reduce block gets 2, instantiating the amended theorem. -/
theorem c6_witness :
    ("HAN" ≠ "QIN" ∧ update_reward_per_block "HAN" 123 11601000 1 = 3 / 16) ∧
    update_reward_per_block "QIN" 11700000 11650000 1 = 2 :=
  ⟨⟨by decide,
      c6_amended_override_only_outside_qin.1 "HAN" 123 11601000 1 (by decide) (by decide)
        (by decide)⟩,
    c6_amended_override_only_outside_qin.2.1 11700000 11650000 1 (by decide)⟩

/-- C7 counterexample: with ZHOU_M = 3, ZHOU_N = 1 configured, a ZHOU-round
holder with reward 1 and MCB balance 200000 gets factor 3 from the code
(default constants 2 and 102500) while the claimed formula with the ZHOU
constants gives 4: the if/if/else chain at rewards.py:255-264 overwrites the
ZHOU assignment. -/
theorem c7_zhou_factor_uses_default_constants :
    get_holder_reward_factor "ZHOU" 3 1 5 7 1 200000 ≠
      claimed_reward_factor "ZHOU" 3 1 5 7 1 200000 := by
  have h1 : ("ZHOU" : String) ≠ "QIN" := by decide
  norm_num [get_holder_reward_factor, claimed_reward_factor, min_def, h1]

/-- C7 amended: the factor is 1 + min(mcb_weight, 1) * M with
(M, N) = (QIN_M, QIN_N) on a QIN round and (2, 102500) on every other round,
ZHOU included; the configured ZHOU constants never reach the result. -/
theorem c7_amended_factor_formula :
    ∀ (round : String) (zhou_m zhou_n qin_m qin_n reward mcb : ℚ),
      get_holder_reward_factor round zhou_m zhou_n qin_m qin_n reward mcb =
        (if round = "QIN" then
          1 + min (if reward = 0 then 0 else mcb / (reward * qin_n)) 1 * qin_m
        else
          1 + min (if reward = 0 then 0 else mcb / (reward * 102500)) 1 * 2) := by
  intro round zm zn qm qn rw mcb
  have aux : ∀ (w M : ℚ), (if w < 1 then 1 + w * M else 1 + M) = 1 + min w 1 * M := by
    intro w M
    by_cases hw : w < 1
    · rw [if_pos hw, min_eq_left hw.le]
    · rw [if_neg hw, min_eq_right (not_lt.mp hw), one_mul]
  by_cases hq : round = "QIN"
  · simp only [get_holder_reward_factor, hq, if_pos]
    exact aux _ _
  · simp only [get_holder_reward_factor, if_neg hq]
    exact aux _ _

/-- C8 counterexample: on a HAN round with the MCB/ETH share token holding 30
MCB and the MCB/USDC share token holding 10 MCB, the MCB/ETH pool reward is
percent * reward_per_block * 3/4, not the claimed equal split of 1/2: the per
block proportion refresh at rewards.py:470-486 divides by MCB holdings. -/
theorem c8_han_split_is_proportional_not_equal :
    uniswap_pool_reward 1 1 c8_mcb_balances (han_pool_info "0xethpool" "0xusdcpool")
        ⟨"UNISWAP_MCB_ETH", "0xethpool", "UNISWAP"⟩ ≠ 1 * 1 * (1 / 2) := by
  have h1 : ("0xusdcpool" : String) ≠ "0xethpool" := by decide
  norm_num [uniswap_pool_reward, uniswap_pool_proportion, total_mcb_in_uniswap_pools,
    han_pool_info, c8_mcb_balances, h1]

/-- C8 amended: on a HAN round each UNISWAP pool receives
reward_per_block * (its share-token address MCB balance / total MCB across
both pools); equal split happens only when both balances agree.  When the
total is zero, each proportion keeps its default 1 and the pool gets the full
reward_per_block. -/
theorem c8_amended_han_split_proportional_to_mcb :
    ∀ (rpb : ℚ) (mcb_of : Addr → ℚ) (eth_addr usdc_addr : Addr),
      (mcb_of eth_addr + mcb_of usdc_addr ≠ 0 →
        uniswap_pool_reward 1 rpb mcb_of (han_pool_info eth_addr usdc_addr)
            ⟨"UNISWAP_MCB_ETH", eth_addr, "UNISWAP"⟩ =
          1 * rpb * (mcb_of eth_addr / (mcb_of eth_addr + mcb_of usdc_addr)) ∧
        uniswap_pool_reward 1 rpb mcb_of (han_pool_info eth_addr usdc_addr)
            ⟨"UNISWAP_MCB_USDC", usdc_addr, "UNISWAP"⟩ =
          1 * rpb * (mcb_of usdc_addr / (mcb_of eth_addr + mcb_of usdc_addr))) ∧
      (mcb_of eth_addr + mcb_of usdc_addr = 0 →
        uniswap_pool_reward 1 rpb mcb_of (han_pool_info eth_addr usdc_addr)
            ⟨"UNISWAP_MCB_ETH", eth_addr, "UNISWAP"⟩ = 1 * rpb * 1) := by
  intro rpb mcb_of ea ua
  have htot : total_mcb_in_uniswap_pools mcb_of (han_pool_info ea ua) =
      mcb_of ea + mcb_of ua := by
    simp [total_mcb_in_uniswap_pools, han_pool_info]
  constructor
  · intro h
    constructor <;> simp [uniswap_pool_reward, uniswap_pool_proportion, htot, h]
  · intro h
    simp [uniswap_pool_reward, uniswap_pool_proportion, htot, h]

/-- C8 witness: instantiating the amended theorem at the concrete balances 30
and 10 gives the MCB/USDC pool one quarter of the budget. -/
theorem c8_witness :
    (c8_mcb_balances "0xethpool" + c8_mcb_balances "0xusdcpool" ≠ 0) ∧
    uniswap_pool_reward 1 1 c8_mcb_balances (han_pool_info "0xethpool" "0xusdcpool")
        ⟨"UNISWAP_MCB_USDC", "0xusdcpool", "UNISWAP"⟩ =
      1 * 1 * (c8_mcb_balances "0xusdcpool" /
        (c8_mcb_balances "0xethpool" + c8_mcb_balances "0xusdcpool")) :=
  ⟨by
      have h1 : ("0xusdcpool" : String) ≠ "0xethpool" := by decide
      norm_num [c8_mcb_balances, h1],
    ((c8_amended_han_split_proportional_to_mcb 1 c8_mcb_balances "0xethpool" "0xusdcpool").1
      (by
        have h1 : ("0xusdcpool" : String) ≠ "0xethpool" := by decide
        norm_num [c8_mcb_balances, h1])).2⟩

/-- C9 counterexample: at imbalance 1/2 (strictly between 0.2 and 0.9) and
share balance 1, the embedded SHANG curve differs from the exact-rational
formula 44/35 - imbalance * 9/7: the literals Decimal(44/35) and Decimal(9/7)
at rewards.py:101 go through Python float division, so the coefficients are
the binary doubles, not the exact fractions. -/
theorem c9_shang_coefficients_are_binary_floats :
    (1 : ℚ) / 5 < 1 / 2 ∧ (1 : ℚ) / 2 < 9 / 10 ∧
    shang_effective_share 1 (1 / 2) ≠ 1 * (44 / 35 - (1 / 2) * (9 / 7)) := by
  refine ⟨by norm_num, by norm_num, ?_⟩
  norm_num [shang_effective_share, dbl_0_2, dbl_0_9, dbl_0_1, dbl_44_35, dbl_9_7]

/-- C9 amended: the SHANG effective share uses the IEEE-754 double values of
0.2, 0.9, 0.1, 44/35 and 9/7 as thresholds and coefficients: balance for
imbalance at most double(0.2), balance * double(0.1) for imbalance at least
double(0.9), and balance * (double(44/35) - imbalance * double(9/7))
strictly in between. -/
theorem c9_amended_shang_curve_with_double_coefficients :
    ∀ (s imb : ℚ),
      (imb ≤ dbl_0_2 → shang_effective_share s imb = s) ∧
      (dbl_0_9 ≤ imb → shang_effective_share s imb = s * dbl_0_1) ∧
      (dbl_0_2 < imb → imb < dbl_0_9 →
        shang_effective_share s imb = s * (dbl_44_35 - imb * dbl_9_7)) := by
  intro s imb
  refine ⟨?_, ?_, ?_⟩
  · intro h
    simp [shang_effective_share, h]
  · intro h
    by_cases h2 : imb ≤ dbl_0_2
    · exfalso
      have hcmp : dbl_0_9 ≤ dbl_0_2 := le_trans h h2
      norm_num [dbl_0_9, dbl_0_2] at hcmp
    · rw [shang_effective_share, if_neg h2, if_pos h]
  · intro h1 h2
    rw [shang_effective_share, if_neg (not_le.mpr h1), if_neg (not_le.mpr h2)]

/-! ### Sum bookkeeping lemmas for the immature-reward tables -/

/-- Updating only the balance of a summary row leaves its key test unchanged. -/
theorem summary_matches_set_balance (r' p' h' : String) (s : ImmatureMiningRewardSummary)
    (b : ℚ) :
    summary_matches r' p' h' { s with mcb_balance := b } = summary_matches r' p' h' s := rfl

theorem summaries_balance_cons (x : ImmatureMiningRewardSummary)
    (xs : List ImmatureMiningRewardSummary) (r' p' h' : String) :
    summaries_balance (x :: xs) r' p' h' =
      (if summary_matches r' p' h' x = true then x.mcb_balance else 0) +
        summaries_balance xs r' p' h' := by
  by_cases hx : summary_matches r' p' h' x = true <;>
    simp [summaries_balance, List.filter_cons, hx]

theorem summaries_balance_append (l₁ l₂ : List ImmatureMiningRewardSummary) (r' p' h' : String) :
    summaries_balance (l₁ ++ l₂) r' p' h' =
      summaries_balance l₁ r' p' h' + summaries_balance l₂ r' p' h' := by
  simp [summaries_balance, List.filter_append]

theorem summaries_balance_singleton (r p h r' p' h' : String) (amt : ℚ) :
    summaries_balance [⟨r, p, h, amt⟩] r' p' h' =
      if r = r' ∧ p = p' ∧ h = h' then amt else 0 := by
  by_cases hc : r = r' ∧ p = p' ∧ h = h' <;>
    simp [summaries_balance, summary_matches, hc]

theorem summaries_balance_add_to_first (l : List ImmatureMiningRewardSummary) (r p h : String)
    (amt : ℚ) (r' p' h' : String) :
    summaries_balance (add_to_first_summary l (summary_matches r p h) amt) r' p' h' =
      summaries_balance l r' p' h' +
        (if l.any (summary_matches r p h) = true ∧ r = r' ∧ p = p' ∧ h = h' then amt
         else 0) := by
  induction l with
  | nil => simp [add_to_first_summary, summaries_balance]
  | cons s rest ih =>
    by_cases hs : summary_matches r p h s = true
    · have hkey : s.mining_round = r ∧ s.pool_name = p ∧ s.holder = h := by
        simpa [summary_matches] using hs
      have hstep : add_to_first_summary (s :: rest) (summary_matches r p h) amt =
          { s with mcb_balance := s.mcb_balance + amt } :: rest := by
        simp [add_to_first_summary, hs]
      rw [hstep, summaries_balance_cons, summaries_balance_cons, summary_matches_set_balance]
      have hany : (s :: rest).any (summary_matches r p h) = true := by simp [hs]
      by_cases heq : r = r' ∧ p = p' ∧ h = h'
      · obtain ⟨e1, e2, e3⟩ := heq
        subst e1; subst e2; subst e3
        simp only [hs, if_true, hany, true_and, and_self, if_pos]
        ring
      · have hm : summary_matches r' p' h' s = false := by
          rcases hkey with ⟨k1, k2, k3⟩
          simp only [summary_matches, k1, k2, k3, decide_eq_false_iff_not]
          exact heq
        simp [hm, hany, heq]
    · have hstep : add_to_first_summary (s :: rest) (summary_matches r p h) amt =
          s :: add_to_first_summary rest (summary_matches r p h) amt := by
        simp [add_to_first_summary, hs]
      rw [hstep, summaries_balance_cons, summaries_balance_cons, ih]
      have hany : (s :: rest).any (summary_matches r p h) = rest.any (summary_matches r p h) := by
        simp [hs]
      rw [hany]
      ring

theorem summaries_balance_upsert (l : List ImmatureMiningRewardSummary) (r p h : String)
    (amt : ℚ) (r' p' h' : String) :
    summaries_balance (upsert_immature_summary l r p h amt) r' p' h' =
      summaries_balance l r' p' h' + (if r = r' ∧ p = p' ∧ h = h' then amt else 0) := by
  unfold upsert_immature_summary
  by_cases hany : l.any (summary_matches r p h) = true
  · rw [if_pos hany, summaries_balance_add_to_first]
    simp [hany]
  · rw [if_neg hany, summaries_balance_append, summaries_balance_singleton]

theorem rows_sum_cons (x : ImmatureMiningReward) (xs : List ImmatureMiningReward)
    (r' p' h' : String) :
    rows_sum (x :: xs) r' p' h' =
      (if reward_matches r' p' h' x = true then x.mcb_balance else 0) + rows_sum xs r' p' h' := by
  by_cases hx : reward_matches r' p' h' x = true <;> simp [rows_sum, List.filter_cons, hx]

theorem rows_sum_append (l₁ l₂ : List ImmatureMiningReward) (r' p' h' : String) :
    rows_sum (l₁ ++ l₂) r' p' h' = rows_sum l₁ r' p' h' + rows_sum l₂ r' p' h' := by
  simp [rows_sum, List.filter_append]

theorem rows_sum_singleton (blk : Nat) (r p h : String) (amt : ℚ) (r' p' h' : String) :
    rows_sum [⟨blk, r, p, h, amt⟩] r' p' h' = if r = r' ∧ p = p' ∧ h = h' then amt else 0 := by
  by_cases hc : r = r' ∧ p = p' ∧ h = h' <;> simp [rows_sum, reward_matches, hc]

/-! ### Sync preserves the summary invariant -/

theorem summary_invariant_insert (db : RewardDB) (blk : Nat) (r p : String) (h : Addr)
    (amt : ℚ) (hinv : SummaryInvariant db) :
    SummaryInvariant (insert_immature_reward db blk r p h amt) := by
  intro r' p' h'
  show summaries_balance (upsert_immature_summary db.summaries r p h amt) r' p' h' =
    rows_sum (db.rewards ++ [⟨blk, r, p, h, amt⟩]) r' p' h'
  rw [summaries_balance_upsert, rows_sum_append, rows_sum_singleton]
  have hx := hinv r' p' h'
  unfold summary_balance at hx
  rw [hx]

theorem nonneg_insert (db : RewardDB) (blk : Nat) (r p : String) (h : Addr) (amt : ℚ)
    (hnn : NonnegRewards db) (hamt : 0 ≤ amt) :
    NonnegRewards (insert_immature_reward db blk r p h amt) := by
  intro row hrow
  have hrow' : row ∈ db.rewards ++ [⟨blk, r, p, h, amt⟩] := hrow
  rcases List.mem_append.mp hrow' with hm | hm
  · exact hnn row hm
  · rw [List.mem_singleton] at hm
    subst hm
    exact hamt

theorem engine_inv_sync_pool (blk : Nat) (r p : String) (entries : List (Addr × ℚ)) :
    ∀ db : RewardDB, SummaryInvariant db → NonnegRewards db → (∀ e ∈ entries, 0 ≤ e.2) →
      SummaryInvariant (sync_pool_rewards db blk r p entries) ∧
        NonnegRewards (sync_pool_rewards db blk r p entries) := by
  induction entries with
  | nil => intro db hinv hnn _; exact ⟨hinv, hnn⟩
  | cons e es ih =>
    intro db hinv hnn hents
    show SummaryInvariant
        (sync_pool_rewards (insert_immature_reward db blk r p e.1 e.2) blk r p es) ∧ _
    exact ih _ (summary_invariant_insert _ _ _ _ _ _ hinv)
      (nonneg_insert _ _ _ _ _ _ hnn (hents e (List.mem_cons_self e es)))
      (fun e' he' => hents e' (List.mem_cons_of_mem e he'))

theorem engine_inv_sync (blk : Nat) (r : String) (pools : List (String × List (Addr × ℚ))) :
    ∀ db : RewardDB, SummaryInvariant db → NonnegRewards db →
      (∀ pr ∈ pools, ∀ e ∈ pr.2, 0 ≤ e.2) →
      SummaryInvariant (calculate_pools_reward db blk r pools) ∧
        NonnegRewards (calculate_pools_reward db blk r pools) := by
  induction pools with
  | nil => intro db hinv hnn _; exact ⟨hinv, hnn⟩
  | cons pr rest ih =>
    intro db hinv hnn hpools
    show SummaryInvariant
        (calculate_pools_reward (sync_pool_rewards db blk r pr.1 pr.2) blk r rest) ∧ _
    obtain ⟨h1, h2⟩ :=
      engine_inv_sync_pool blk r pr.1 pr.2 db hinv hnn (hpools pr (List.mem_cons_self pr rest))
    exact ih _ h1 h2 (fun pr' hpr' => hpools pr' (List.mem_cons_of_mem pr hpr'))

/-! ### Rollback preserves the summary invariant -/

theorem any_add_to_first (l : List ImmatureMiningRewardSummary) (r p h : String) (amt : ℚ)
    (r' p' h' : String) :
    (add_to_first_summary l (summary_matches r p h) amt).any (summary_matches r' p' h') =
      l.any (summary_matches r' p' h') := by
  induction l with
  | nil => rfl
  | cons s rest ih =>
    by_cases hs : summary_matches r p h s = true
    · simp [add_to_first_summary, hs, summary_matches_set_balance]
    · simp [add_to_first_summary, hs, ih]

theorem any_subtract_if_present (l : List ImmatureMiningRewardSummary) (r p h : String)
    (amt : ℚ) (r' p' h' : String) :
    (subtract_summary_if_present l r p h amt).any (summary_matches r' p' h') =
      l.any (summary_matches r' p' h') := by
  unfold subtract_summary_if_present
  by_cases hany : l.any (summary_matches r p h) = true
  · rw [if_pos hany, any_add_to_first]
  · rw [if_neg hany]

theorem summaries_balance_subtract_if_present (l : List ImmatureMiningRewardSummary)
    (r p h : String) (amt : ℚ) (r' p' h' : String) :
    summaries_balance (subtract_summary_if_present l r p h amt) r' p' h' =
      summaries_balance l r' p' h' -
        (if l.any (summary_matches r p h) = true ∧ r = r' ∧ p = p' ∧ h = h' then amt
         else 0) := by
  unfold subtract_summary_if_present
  by_cases hany : l.any (summary_matches r p h) = true
  · rw [if_pos hany, summaries_balance_add_to_first]
    split_ifs <;> ring
  · rw [if_neg hany]
    simp [hany]

theorem summaries_balance_rollback_fold (r : String) (f : String × Addr → ℚ) :
    ∀ keys : List (String × Addr), keys.Nodup →
      ∀ (summaries : List ImmatureMiningRewardSummary) (r' p' h' : String),
        summaries_balance
            (keys.foldl (fun l k => subtract_summary_if_present l r k.1 k.2 (f k)) summaries)
            r' p' h' =
          summaries_balance summaries r' p' h' -
            (if r = r' ∧ (p', h') ∈ keys ∧ summaries.any (summary_matches r p' h') = true
             then f (p', h') else 0) := by
  intro keys
  induction keys with
  | nil =>
    intro _ summaries r' p' h'
    simp
  | cons k ks ih =>
    intro hnd summaries r' p' h'
    obtain ⟨hknot, hndks⟩ := List.nodup_cons.mp hnd
    show summaries_balance
        (ks.foldl (fun l k => subtract_summary_if_present l r k.1 k.2 (f k))
          (subtract_summary_if_present summaries r k.1 k.2 (f k))) r' p' h' = _
    rw [ih hndks, any_subtract_if_present, summaries_balance_subtract_if_present]
    by_cases hk : k = (p', h')
    · subst hk
      have hmem : (p', h') ∉ ks := hknot
      by_cases hany : summaries.any (summary_matches r p' h') = true
      · by_cases hr : r = r' <;> simp [hmem, hany, hr]
      · simp [hmem, hany]
    · have hne1 : ¬(summaries.any (summary_matches r k.1 k.2) = true ∧ r = r' ∧
          k.1 = p' ∧ k.2 = h') := by
        rintro ⟨-, -, h1, h2⟩
        exact hk (Prod.ext h1 h2)
      have hcond : (r = r' ∧ (p', h') ∈ k :: ks ∧
            summaries.any (summary_matches r p' h') = true) ↔
          (r = r' ∧ (p', h') ∈ ks ∧ summaries.any (summary_matches r p' h') = true) := by
        constructor
        · rintro ⟨h1, h2, h3⟩
          rcases List.mem_cons.mp h2 with he | he
          · exact absurd he.symm hk
          · exact ⟨h1, he, h3⟩
        · rintro ⟨h1, h2, h3⟩
          exact ⟨h1, List.mem_cons_of_mem _ h2, h3⟩
      rw [if_neg hne1, sub_zero, if_congr hcond rfl rfl]

theorem rows_sum_filter_split (rows : List ImmatureMiningReward)
    (d : ImmatureMiningReward → Bool) (r' p' h' : String) :
    rows_sum rows r' p' h' =
      rows_sum (rows.filter (fun x => !(d x))) r' p' h' +
        rows_sum (rows.filter d) r' p' h' := by
  induction rows with
  | nil => simp [rows_sum]
  | cons x xs ih =>
    rw [rows_sum_cons]
    by_cases hd : d x = true <;> by_cases hm : reward_matches r' p' h' x = true <;>
      simp [List.filter_cons, hd, hm, rows_sum_cons, ih] <;> ring

theorem rows_sum_nonneg (r' p' h' : String) :
    ∀ rows : List ImmatureMiningReward, (∀ x ∈ rows, 0 ≤ x.mcb_balance) →
      0 ≤ rows_sum rows r' p' h' := by
  intro rows
  induction rows with
  | nil => intro _; simp [rows_sum]
  | cons x xs ih =>
    intro h
    rw [rows_sum_cons]
    have h1 := h x (List.mem_cons_self x xs)
    have h2 := ih (fun y hy => h y (List.mem_cons_of_mem x hy))
    by_cases hm : reward_matches r' p' h' x = true <;> simp [hm] <;> linarith

theorem summaries_balance_zero_of_any_false (l : List ImmatureMiningRewardSummary)
    (r p h : String) (hany : ¬(l.any (summary_matches r p h) = true)) :
    summaries_balance l r p h = 0 := by
  have hfil : l.filter (summary_matches r p h) = [] := by
    rw [List.filter_eq_nil_iff]
    intro a ha hpa
    exact hany (List.any_eq_true.mpr ⟨a, ha, hpa⟩)
  simp [summaries_balance, hfil]

theorem rows_sum_other_round (blk : Nat) (r r' p' h' : String) (hne : r ≠ r') :
    ∀ rows : List ImmatureMiningReward,
      rows_sum (rows.filter (doomed_filter blk r)) r' p' h' = 0 := by
  intro rows
  induction rows with
  | nil => simp [rows_sum]
  | cons x xs ih =>
    by_cases hd : doomed_filter blk r x = true
    · have hr : x.mining_round = r := by
        have hprop : blk < x.block_number ∧ x.mining_round = r := by
          simpa [doomed_filter] using hd
        exact hprop.2
      have hm : reward_matches r' p' h' x = false := by
        simp only [reward_matches, hr, decide_eq_false_iff_not]
        rintro ⟨he, -, -⟩
        exact hne he
      simp [List.filter_cons, hd, rows_sum_cons, hm, ih]
    · simp [List.filter_cons, hd, ih]

theorem rows_sum_zero_of_key_not_mem (r' p' h' : String) :
    ∀ doomed : List ImmatureMiningReward,
      (p', h') ∉ doomed.map (fun row => (row.pool_name, row.holder)) →
      rows_sum doomed r' p' h' = 0 := by
  intro doomed
  induction doomed with
  | nil => intro _; simp [rows_sum]
  | cons x xs ih =>
    intro hmem
    simp only [List.map_cons, List.mem_cons] at hmem
    push_neg at hmem
    obtain ⟨hx, hxs⟩ := hmem
    have hm : reward_matches r' p' h' x = false := by
      simp only [reward_matches, decide_eq_false_iff_not]
      rintro ⟨-, h1, h2⟩
      exact hx (by rw [h1, h2])
    rw [rows_sum_cons]
    simp [hm, ih hxs]

theorem engine_inv_rollback (db : RewardDB) (blk : Nat) (r : String)
    (hinv : SummaryInvariant db) (hnn : NonnegRewards db) :
    SummaryInvariant (rollback_rewards db blk r) ∧ NonnegRewards (rollback_rewards db blk r) := by
  constructor
  · intro r' p' h'
    have hfold := summaries_balance_rollback_fold r
      (fun k => rows_sum (db.rewards.filter (doomed_filter blk r)) r k.1 k.2)
      ((db.rewards.filter (doomed_filter blk r)).map
        (fun row => (row.pool_name, row.holder))).dedup
      (List.nodup_dedup _) db.summaries r' p' h'
    simp only at hfold
    have hsum := hinv r' p' h'
    have hsplit := rows_sum_filter_split db.rewards (doomed_filter blk r) r' p' h'
    have hkeep : 0 ≤ rows_sum (db.rewards.filter (fun row => !(doomed_filter blk r row)))
        r' p' h' :=
      rows_sum_nonneg r' p' h' _ (fun x hx => hnn x (List.mem_filter.mp hx).1)
    have hpart : 0 ≤ rows_sum (db.rewards.filter (doomed_filter blk r)) r' p' h' :=
      rows_sum_nonneg r' p' h' _ (fun x hx => hnn x (List.mem_filter.mp hx).1)
    have hrw : (rollback_rewards db blk r).rewards =
        db.rewards.filter (fun row => !(doomed_filter blk r row)) := rfl
    rw [hrw]
    refine hfold.trans ?_
    by_cases hr : r = r'
    · subst hr
      by_cases hmem : (p', h') ∈ ((db.rewards.filter (doomed_filter blk r)).map
          (fun row => (row.pool_name, row.holder))).dedup
      · by_cases hany : db.summaries.any (summary_matches r p' h') = true
        · rw [if_pos ⟨rfl, hmem, hany⟩]
          unfold summary_balance at hsum
          linarith
        · rw [if_neg (by rintro ⟨-, -, hc⟩; exact hany hc)]
          have hbal : summaries_balance db.summaries r p' h' = 0 :=
            summaries_balance_zero_of_any_false _ _ _ _ hany
          unfold summary_balance at hsum
          linarith
      · rw [if_neg (by rintro ⟨-, hc, -⟩; exact hmem hc)]
        have hzero : rows_sum (db.rewards.filter (doomed_filter blk r)) r p' h' = 0 :=
          rows_sum_zero_of_key_not_mem r p' h' _
            (fun hc => hmem (List.mem_dedup.mpr hc))
        unfold summary_balance at hsum
        linarith
    · rw [if_neg (by rintro ⟨hc, -, -⟩; exact hr hc)]
      have hzero : rows_sum (db.rewards.filter (doomed_filter blk r)) r' p' h' = 0 :=
        rows_sum_other_round blk r r' p' h' hr db.rewards
      unfold summary_balance at hsum
      linarith
  · intro row hrow
    have hrow' : row ∈ db.rewards.filter (fun row => !(doomed_filter blk r row)) := hrow
    exact hnn row (List.mem_filter.mp hrow').1

theorem engine_step_preserves (db db' : RewardDB) (hstep : EngineStep db db')
    (h : SummaryInvariant db ∧ NonnegRewards db) :
    SummaryInvariant db' ∧ NonnegRewards db' := by
  cases hstep with
  | sync blk r pools hnnp => exact engine_inv_sync blk r pools db h.1 h.2 hnnp
  | rollback blk r => exact engine_inv_rollback db blk r h.1 h.2

/-- C2: starting from any state satisfying the summary invariant (with the
data-model constraint that reward amounts are nonnegative), every state
reachable through sync persistence passes and rollbacks satisfies
ImmatureMiningRewardSummary.mcb_balance = Σ ImmatureMiningReward.mcb_balance
for every (round, pool, holder). -/
theorem c2_summary_invariant_reachable :
    ∀ db db' : RewardDB, SummaryInvariant db → NonnegRewards db → EngineReachable db db' →
      SummaryInvariant db' := by
  intro db db' hinv hnn hr
  have hr' : Relation.ReflTransGen EngineStep db db' := hr
  clear hr
  have h : SummaryInvariant db' ∧ NonnegRewards db' := by
    induction hr' with
    | refl => exact ⟨hinv, hnn⟩
    | tail hab hbc ih => exact engine_step_preserves _ _ hbc ih
  exact h.1

/-- C2 witness: one sync step from the empty state keeps the summary equal to
the row sum at the touched key. -/
theorem c2_witness :
    summary_balance
        (calculate_pools_reward (RewardDB.mk [] []) 5 "XIA" [("ETH_PERP", [("0xh", 3)])])
        "XIA" "ETH_PERP" "0xh" =
      rows_sum
        (calculate_pools_reward (RewardDB.mk [] []) 5 "XIA"
          [("ETH_PERP", [("0xh", 3)])]).rewards
        "XIA" "ETH_PERP" "0xh" :=
  c2_summary_invariant_reachable (RewardDB.mk [] []) _ (fun _ _ _ => rfl)
    (fun row hrow => absurd hrow (List.not_mem_nil row))
    (Relation.ReflTransGen.single (EngineStep.sync _ 5 "XIA" _ (by
      intro pr hpr e he
      rw [List.mem_singleton] at hpr
      subst hpr
      rw [List.mem_singleton] at he
      subst he
      norm_num)))
    "XIA" "ETH_PERP" "0xh"

/-! ### The effect of a whole sync pass, for idempotence analysis -/

theorem sync_pool_rewards_rewards (db : RewardDB) (blk : Nat) (r p : String)
    (entries : List (Addr × ℚ)) :
    (sync_pool_rewards db blk r p entries).rewards = db.rewards ++ entry_rows blk r p entries := by
  induction entries generalizing db with
  | nil => simp [sync_pool_rewards, entry_rows]
  | cons e es ih =>
    show (sync_pool_rewards (insert_immature_reward db blk r p e.1 e.2) blk r p es).rewards = _
    rw [ih]
    simp [insert_immature_reward, entry_rows, List.append_assoc]

theorem calculate_pools_reward_rewards (db : RewardDB) (blk : Nat) (r : String)
    (pools : List (String × List (Addr × ℚ))) :
    (calculate_pools_reward db blk r pools).rewards = db.rewards ++ pools_rows blk r pools := by
  induction pools generalizing db with
  | nil => simp [calculate_pools_reward, pools_rows]
  | cons pr rest ih =>
    show (calculate_pools_reward (sync_pool_rewards db blk r pr.1 pr.2) blk r rest).rewards = _
    rw [ih, sync_pool_rewards_rewards]
    simp [pools_rows, List.append_assoc]

theorem sync_pool_balance (blk : Nat) (r p : String) (entries : List (Addr × ℚ)) :
    ∀ (db : RewardDB) (r' p' h' : String),
      summary_balance (sync_pool_rewards db blk r p entries) r' p' h' =
        summary_balance db r' p' h' +
          (if r = r' ∧ p = p' then entries_sum_for h' entries else 0) := by
  induction entries with
  | nil =>
    intro db r' p' h'
    simp [sync_pool_rewards, entries_sum_for]
  | cons e es ih =>
    intro db r' p' h'
    show summary_balance
        (sync_pool_rewards (insert_immature_reward db blk r p e.1 e.2) blk r p es) r' p' h' = _
    rw [ih]
    have hins : summary_balance (insert_immature_reward db blk r p e.1 e.2) r' p' h' =
        summary_balance db r' p' h' + (if r = r' ∧ p = p' ∧ e.1 = h' then e.2 else 0) := by
      show summaries_balance (upsert_immature_summary db.summaries r p e.1 e.2) r' p' h' = _
      rw [summaries_balance_upsert]
      rfl
    rw [hins]
    have hsum : entries_sum_for h' (e :: es) =
        (if e.1 = h' then e.2 else 0) + entries_sum_for h' es := by
      by_cases he : e.1 = h' <;> simp [entries_sum_for, List.filter_cons, he]
    rw [hsum]
    by_cases hrp : r = r' ∧ p = p'
    · obtain ⟨h1, h2⟩ := hrp
      subst h1; subst h2
      by_cases he : e.1 = h' <;> simp [he] <;> ring
    · have hno : ¬(r = r' ∧ p = p' ∧ e.1 = h') := fun hc => hrp ⟨hc.1, hc.2.1⟩
      simp [hrp, hno]

theorem calculate_pools_balance (blk : Nat) (r : String)
    (pools : List (String × List (Addr × ℚ))) :
    ∀ (db : RewardDB) (r' p' h' : String),
      summary_balance (calculate_pools_reward db blk r pools) r' p' h' =
        summary_balance db r' p' h' +
          (if r = r' then pools_entries_sum pools p' h' else 0) := by
  induction pools with
  | nil =>
    intro db r' p' h'
    simp [calculate_pools_reward, pools_entries_sum]
  | cons pr rest ih =>
    intro db r' p' h'
    show summary_balance
        (calculate_pools_reward (sync_pool_rewards db blk r pr.1 pr.2) blk r rest) r' p' h' = _
    rw [ih, sync_pool_balance]
    show _ = summary_balance db r' p' h' +
      (if r = r' then
        (if pr.1 = p' then entries_sum_for h' pr.2 else 0) + pools_entries_sum rest p' h'
       else 0)
    by_cases hr : r = r'
    · by_cases hp : pr.1 = p' <;> simp [hr, hp] <;> ring
    · have hno : ¬(r = r' ∧ pr.1 = p') := fun hc => hr hc.1
      simp [hr, hno]

/-- C4 counterexample: running the persistence pass of sync twice with the
same computed rewards (the reward computation reads only watcher tables,
which sync never writes, so a re-run computes identical entries) does not
leave the ImmatureMiningReward rows identical: the second run appends a
second row, so sync is not idempotent as claimed. -/
theorem c4_second_sync_duplicates_rows :
    calculate_pools_reward (calculate_pools_reward (RewardDB.mk [] []) 7 "XIA" c4_pools) 7 "XIA"
        c4_pools ≠ calculate_pools_reward (RewardDB.mk [] []) 7 "XIA" c4_pools :=
  fun hc => absurd (congrArg (fun d : RewardDB => d.rewards.length) hc) (by decide)

/-- C4 amended: a second run of the sync persistence pass on the state
produced by the first run appends the same reward rows once more and
increments every summary by the same per-(pool, holder) amount again, instead
of leaving the state unchanged; equality of the two states fails whenever the
pass produces at least one row. -/
theorem c4_amended_second_sync_appends_same_rewards_again :
    ∀ (db : RewardDB) (blk : Nat) (r : String) (pools : List (String × List (Addr × ℚ))),
      (calculate_pools_reward (calculate_pools_reward db blk r pools) blk r pools).rewards =
        (calculate_pools_reward db blk r pools).rewards ++ pools_rows blk r pools ∧
      ∀ r' p' h' : String,
        summary_balance
              (calculate_pools_reward (calculate_pools_reward db blk r pools) blk r pools)
              r' p' h' -
            summary_balance (calculate_pools_reward db blk r pools) r' p' h' =
          summary_balance (calculate_pools_reward db blk r pools) r' p' h' -
            summary_balance db r' p' h' := by
  intro db blk r pools
  refine ⟨calculate_pools_reward_rewards _ _ _ _, ?_⟩
  intro r' p' h'
  rw [calculate_pools_balance blk r pools (calculate_pools_reward db blk r pools) r' p' h',
    calculate_pools_balance blk r pools db r' p' h']
  ring

/-- C9 witness: imbalance 1/2 falls in the middle branch of the amended
theorem. -/
theorem c9_witness :
    (dbl_0_2 < (1 : ℚ) / 2 ∧ (1 : ℚ) / 2 < dbl_0_9) ∧
    shang_effective_share 1 (1 / 2) = 1 * (dbl_44_35 - (1 / 2) * dbl_9_7) :=
  ⟨⟨by norm_num [dbl_0_2], by norm_num [dbl_0_9]⟩,
    (c9_amended_shang_curve_with_double_coefficients 1 (1 / 2)).2.2 (by norm_num [dbl_0_2])
      (by norm_num [dbl_0_9])⟩

/-! ### The reconcile phase aborts the cycle on a receipt error -/

theorem tx_keys_update_first (l : List PaymentTransaction) (hsh : String) (st : TxStatus) :
    (update_first_tx_status l hsh st).map
        (fun t => (t.id, t.transaction_nonce, t.transaction_hash)) =
      l.map (fun t => (t.id, t.transaction_nonce, t.transaction_hash)) := by
  induction l with
  | nil => rfl
  | cons t ts ih =>
    by_cases ht : t.transaction_hash = hsh <;> simp [update_first_tx_status, ht, ih]

theorem tx_keys_save_payments_info (db : PayerDB) (rh : String) (rs : Bool)
    (miners : List Addr) (amounts : List ℚ) :
    tx_keys (save_payments_info db rh rs miners amounts) = tx_keys db := by
  unfold save_payments_info
  cases hf : db.paymentTransactions.find? (fun t => decide (t.transaction_hash = rh)) with
  | none => rfl
  | some pt =>
    by_cases hst : transaction_status_of_receipt rs = TxStatus.SUCCESS <;>
      simp [hst, tx_keys, tx_keys_update_first]

theorem check_pending_go_keys (oracle : String → Except Unit Receipt) :
    ∀ (l : List PaymentTransaction) (db : PayerDB),
      tx_keys (check_pending_go oracle db l).1 = tx_keys db := by
  intro l
  induction l with
  | nil => intro db; rfl
  | cons t rest ih =>
    intro db
    unfold check_pending_go
    cases ho : oracle t.transaction_hash with
    | error e => rfl
    | ok r => rw [ih, tx_keys_save_payments_info]

theorem check_pending_go_false (oracle : String → Except Unit Receipt) :
    ∀ (l : List PaymentTransaction) (db : PayerDB),
      (∃ t ∈ l, oracle t.transaction_hash = Except.error ()) →
      (check_pending_go oracle db l).2 = false := by
  intro l
  induction l with
  | nil =>
    intro db hex
    rcases hex with ⟨t, ht, -⟩
    exact absurd ht (List.not_mem_nil t)
  | cons t rest ih =>
    intro db hex
    unfold check_pending_go
    cases ho : oracle t.transaction_hash with
    | error e => rfl
    | ok r =>
      rcases hex with ⟨t', ht', herr⟩
      rcases List.mem_cons.mp ht' with h1 | h2
      · subst h1
        rw [ho] at herr
        exact Except.noConfusion herr
      · exact ih _ ⟨t', h2, herr⟩

/-- C5: if waiting for the receipt of any INIT or PENDING PaymentTransaction
errors out, run() returns right after the reconcile phase: the unpaid rewards
are never read, the disperse contract is not called, no PaymentTransaction
row is inserted (ids, nonces and hashes of the stored rows are unchanged) and
the cached nonce is not advanced. -/
theorem c5_receipt_error_aborts_cycle :
    ∀ (db : PayerDB) (oracle : String → Except Unit Receipt)
      (mature : List MatureMiningReward) (summaries : List RoundPaymentSummary)
      (round : String) (disperse_result : Except Unit String) (nonce : Nat),
      (∃ t ∈ pending_of db, oracle t.transaction_hash = Except.error ()) →
      run_payer db oracle mature summaries round disperse_result nonce =
          Except.ok ⟨(check_pending_transactions db oracle).1, nonce, false, false⟩ ∧
        tx_keys (check_pending_transactions db oracle).1 = tx_keys db := by
  intro db oracle mature summaries round dr nonce hex
  have hfalse : (check_pending_transactions db oracle).2 = false :=
    check_pending_go_false oracle (pending_of db) db hex
  constructor
  · unfold run_payer
    simp [hfalse]
  · exact check_pending_go_keys oracle (pending_of db) db

/-- C5 witness: a database with one PENDING transaction whose receipt wait
times out makes run() abort with nothing submitted. -/
theorem c5_witness :
    run_payer c5_db c5_oracle [] [] "HAN" (Except.ok "0xnew") 9 =
        Except.ok ⟨(check_pending_transactions c5_db c5_oracle).1, 9, false, false⟩ ∧
      tx_keys (check_pending_transactions c5_db c5_oracle).1 = tx_keys c5_db :=
  c5_receipt_error_aborts_cycle c5_db c5_oracle [] [] "HAN" (Except.ok "0xnew") 9
    ⟨{ id := 1, transaction_nonce := 4, transaction_hash := "0xdead",
       miners := ["0xm"], amounts := [2], status := TxStatus.PENDING },
      by decide, rfl⟩

/-! ### Nonce discipline across pay cycles and restarts -/

theorem le_max_nonce : ∀ (l : List Nat) (x : Nat), x ∈ l → x ≤ max_nonce l := by
  intro l
  induction l with
  | nil => intro x hx; exact absurd hx (List.not_mem_nil x)
  | cons n rest ih =>
    intro x hx
    rcases List.mem_cons.mp hx with h | h
    · rw [h]
      exact le_max_left _ _
    · exact le_trans (ih x h) (le_max_right _ _)

theorem max_nonce_append (a b : List Nat) :
    max_nonce (a ++ b) = max (max_nonce a) (max_nonce b) := by
  induction a with
  | nil => simp [max_nonce]
  | cons n rest ih => simp [max_nonce, ih, max_assoc]

theorem nonce_inv_step (s s' : NonceState) (hstep : PayerEvent s s') (hinv : NonceInv s) :
    NonceInv s' := by
  cases hstep with
  | pay_success c l =>
    obtain ⟨hchain, hbound⟩ := hinv
    have hchain' : l.Chain' (· < ·) := hchain
    have hbound' : ∀ x ∈ l, x ≤ c := hbound
    constructor
    · show (l ++ [c + 1]).Chain' (· < ·)
      rw [List.chain'_append]
      refine ⟨hchain', List.chain'_singleton _, ?_⟩
      intro x hx y hy
      simp only [List.head?_cons, Option.mem_def, Option.some.injEq] at hy
      subst hy
      obtain ⟨hlne, hxe⟩ := List.mem_getLast?_eq_getLast hx
      have hxl : x ∈ l := hxe ▸ List.getLast_mem hlne
      have := hbound' x hxl
      omega
    · show ∀ x ∈ l ++ [c + 1], x ≤ c + 1
      intro x hx
      rcases List.mem_append.mp hx with h | h
      · exact le_trans (hbound' x h) (Nat.le_succ c)
      · rw [List.mem_singleton] at h
        omega
  | pay_no_record c l =>
    obtain ⟨hchain, hbound⟩ := hinv
    have hbound' : ∀ x ∈ l, x ≤ c := hbound
    exact ⟨hchain, fun x hx => le_trans (hbound' x hx) (Nat.le_succ c)⟩
  | restart c l cc =>
    obtain ⟨hchain, hbound⟩ := hinv
    refine ⟨hchain, ?_⟩
    show ∀ x ∈ l, x ≤ init_payer_nonce l cc
    intro x hx
    cases l with
    | nil => exact absurd hx (List.not_mem_nil x)
    | cons n rest =>
      show x ≤ max_nonce (n :: rest) + 1
      exact le_trans (le_max_nonce _ x hx) (Nat.le_succ _)

/-- C10: after startup the next successful pay cycle records nonce
max(stored) + 2 (chain count + 2 when no row exists), because
`_init_payer_nonce` already adds one and the pay cycle adds one more before
submitting; along any sequence of pay cycles and restarts the persisted
nonces stay strictly increasing, and the value max(stored) + 1 skipped at a
restart is never recorded afterwards. -/
theorem c10_first_nonce_after_restart_has_gap :
    (∀ (l : List Nat) (cc : Nat), l ≠ [] →
        pay_record ⟨init_payer_nonce l cc, l⟩ = max_nonce l + 2) ∧
    (∀ cc : Nat, pay_record ⟨init_payer_nonce [] cc, []⟩ = cc + 2) ∧
    (∀ s s' : NonceState, NonceInv s → PayerReachable s s' → NonceInv s') ∧
    (∀ (l : List Nat) (cc : Nat) (s' : NonceState), l ≠ [] →
        PayerReachable ⟨init_payer_nonce l cc, l⟩ s' → max_nonce l + 1 ∉ s'.persisted) := by
  refine ⟨?_, ?_, ?_, ?_⟩
  · intro l cc hne
    cases l with
    | nil => exact absurd rfl hne
    | cons n rest => rfl
  · intro cc
    rfl
  · intro s s' hinv hr
    have hr' : Relation.ReflTransGen PayerEvent s s' := hr
    clear hr
    induction hr' with
    | refl => exact hinv
    | tail hab hbc ih => exact nonce_inv_step _ _ hbc ih
  · intro l cc s' hne hr
    have hinit : init_payer_nonce l cc = max_nonce l + 1 := by
      cases l with
      | nil => exact absurd rfl hne
      | cons n rest => rfl
    have hr' : Relation.ReflTransGen PayerEvent ⟨init_payer_nonce l cc, l⟩ s' := hr
    clear hr
    suffices h : s'.persisted ≠ [] ∧ max_nonce l + 1 ∉ s'.persisted ∧
        max_nonce l + 1 ≤ s'.cached ∧ max_nonce l ≤ max_nonce s'.persisted from h.2.1
    induction hr' with
    | refl =>
      refine ⟨hne, ?_, ?_, le_refl _⟩
      · intro hmem
        have := le_max_nonce l _ hmem
        omega
      · rw [hinit]
    | tail hab hbc ih =>
      obtain ⟨hne', hnotin, hcach, hmax⟩ := ih
      cases hbc with
      | pay_success c m =>
        have hne2 : m ≠ [] := hne'
        have hnotin2 : max_nonce l + 1 ∉ m := hnotin
        have hcach2 : max_nonce l + 1 ≤ c := hcach
        have hmax2 : max_nonce l ≤ max_nonce m := hmax
        refine ⟨by simp, ?_, ?_, ?_⟩
        · show max_nonce l + 1 ∉ m ++ [c + 1]
          intro hmem
          rcases List.mem_append.mp hmem with h | h
          · exact hnotin2 h
          · rw [List.mem_singleton] at h
            omega
        · show max_nonce l + 1 ≤ c + 1
          omega
        · show max_nonce l ≤ max_nonce (m ++ [c + 1])
          rw [max_nonce_append]
          exact le_trans hmax2 (le_max_left _ _)
      | pay_no_record c m =>
        have hcach2 : max_nonce l + 1 ≤ c := hcach
        exact ⟨hne', hnotin, by show max_nonce l + 1 ≤ c + 1; omega, hmax⟩
      | restart c m cc2 =>
        have hne2 : m ≠ [] := hne'
        have hmax2 : max_nonce l ≤ max_nonce m := hmax
        refine ⟨hne', hnotin, ?_, hmax⟩
        show max_nonce l + 1 ≤ init_payer_nonce m cc2
        cases m with
        | nil => exact absurd rfl hne2
        | cons n rest =>
          show max_nonce l + 1 ≤ max_nonce (n :: rest) + 1
          have : max_nonce l ≤ max_nonce (n :: rest) := hmax2
          omega

/-- C10 witness: with one stored nonce 3 the first pay cycle after a restart
records 5 = 3 + 2. -/
theorem c10_witness :
    ([3] : List Nat) ≠ [] ∧ pay_record ⟨init_payer_nonce [3] 0, [3]⟩ = max_nonce [3] + 2 :=
  ⟨by decide, c10_first_nonce_after_restart_has_gap.1 [3] 0 (by decide)⟩

end LiquidityMining
